import Mathlib

/-!
Verification of the Sutherland-Hodgman polygon clipping engine of
src/server.cpp (classes Point, Edge, Vertex, Polygon and the functions
clipPolygonToEdge and clipPolygon).

Shallow embedding conventions.

Numbers: the C++ code computes with double; the embedding uses exact
rationals.  All thresholds of the code (the 1e-15 used by operator== of
Point and by Edge::intersect) are carried over literally as the rational
1 / 10^15.  The comparison a.length() < b.length() of Point::classify,
written with std::sqrt in the code, is embedded as the equivalent
comparison of squared lengths (sqrt is strictly monotone on nonnegative
reals, so the branch taken is the same).

Polygons: Polygon is a circular doubly linked ring of Vertex nodes with a
cursor _v and a count _size.  The functional model is the list of points
read clockwise starting at the cursor: Polygon::insert places the new
vertex immediately after the cursor and leaves the cursor in place,
advance(CLOCKWISE) is a rotation of that list, and the copy constructor
is a fold of insert over the clockwise traversal.  A second, pointer
level model (PolyMem below) represents the heap explicitly - nodes with
numeric addresses and raw next and prev links - and is used to verify
the closed ring invariant of the linked structure itself.

Partiality: reading the out parameter of Edge::intersect when the early
return (determinant below 1e-15) fired leaves t unassigned in the C++
code; the embedding returns none for that read, and the clip loop
propagates none, so every some result of the model is a run of the code
free of such reads.  Polygon::edge throws on an empty polygon; the
embedding returns none there.
-/

/-- PointClassification mirrors enum PointClass of server.cpp.  The C++
enumerators are LEFT, RIGHT, BEHIND, BEYOND, BETWEEN, ORIGIN,
DESTINATION. -/
inductive PointClassification where
  | LEFT
  | RIGHT
  | BEHIND
  | BEYOND
  | BETWEEN
  | ORIGIN
  | DESTINATION
deriving DecidableEq

/-- Point of server.cpp: a pair of coordinates. -/
structure Point where
  x : ℚ
  y : ℚ
deriving DecidableEq

/-- The epsilon 1e-15 used by operator== of Point and by Edge::intersect. -/
def eps : ℚ := 1 / 10 ^ 15

/-- Point subtraction, operator- of Point. -/
def Point.sub (p q : Point) : Point := ⟨p.x - q.x, p.y - q.y⟩

/-- Squared length of a vector; the code compares lengths through
std::sqrt, which is order equivalent. -/
def Point.len2 (p : Point) : ℚ := p.x * p.x + p.y * p.y

/-- Approximate point equality, operator== of Point: squared distance
below eps. -/
def Point.peq (p q : Point) : Prop :=
  (p.x - q.x) * (p.x - q.x) + (p.y - q.y) * (p.y - q.y) < eps

instance (p q : Point) : Decidable (p.peq q) := by
  unfold Point.peq; infer_instance

/-- Edge of server.cpp: a directed segment from org to dest. -/
structure Edge where
  org : Point
  dest : Point
deriving DecidableEq

/-- The cross product sa = a.x*b.y - b.x*a.y computed by Point::classify,
with a = e.dest - e.org and b = p - e.org. -/
def crossSA (p : Point) (e : Edge) : ℚ :=
  (e.dest.sub e.org).x * (p.sub e.org).y - (p.sub e.org).x * (e.dest.sub e.org).y

/-- Point::classify of server.cpp, branch for branch. -/
def Point.classify (p : Point) (e : Edge) : PointClassification :=
  if 0 < crossSA p e then .LEFT
  else if crossSA p e < 0 then .RIGHT
  else if (e.dest.sub e.org).x * (p.sub e.org).x < 0 ∨
      (e.dest.sub e.org).y * (p.sub e.org).y < 0 then .BEHIND
  else if (e.dest.sub e.org).len2 < (p.sub e.org).len2 then .BEYOND
  else if e.org.peq p then .ORIGIN
  else if e.dest.peq p then .DESTINATION
  else .BETWEEN

/-- Edge::point: the parametrization org + t * (dest - org). -/
def Edge.point (e : Edge) (t : ℚ) : Point :=
  ⟨e.org.x + t * (e.dest.x - e.org.x), e.org.y + t * (e.dest.y - e.org.y)⟩

/-- The determinant denom = a*d - b*c of the 2x2 system solved by
Edge::intersect, where eA is this and eB is the argument edge. -/
def edgeDet (eA eB : Edge) : ℚ :=
  (eA.dest.x - eA.org.x) * (eB.org.y - eB.dest.y) -
    (eB.org.x - eB.dest.x) * (eA.dest.y - eA.org.y)

/-- The value t = (e1*d - e2*b) / denom computed by Edge::intersect. -/
def intT (eA eB : Edge) : ℚ :=
  ((eB.org.x - eA.org.x) * (eB.org.y - eB.dest.y) -
      (eB.org.y - eA.org.y) * (eB.org.x - eB.dest.x)) / edgeDet eA eB

/-- The value u = (e1*c - e2*a) / denom computed by Edge::intersect. -/
def intU (eA eB : Edge) : ℚ :=
  ((eB.org.x - eA.org.x) * (eA.dest.y - eA.org.y) -
      (eB.org.y - eA.org.y) * (eA.dest.x - eA.org.x)) / edgeDet eA eB

/-- Edge::intersect of server.cpp.  First component: the bool return
value.  Second component: the value left in the out parameter t, or none
when the early return fired and t stays unassigned. -/
def Edge.intersect (eA eB : Edge) : Bool × Option ℚ :=
  if |edgeDet eA eB| < eps then (false, none)
  else if 0 ≤ intT eA eB ∧ intT eA eB ≤ 1 ∧ 0 ≤ intU eA eB ∧ intU eA eB ≤ 1 then
    (true, some (intT eA eB))
  else (false, some (intT eA eB))

/-- Polygon::insert: the new vertex goes immediately after the cursor
(Vertex::insert on _v) and the cursor stays put.  In the clockwise list
model the head is the cursor, so the new point becomes the second
element.  On an empty polygon the new vertex becomes the cursor of a one
element ring. -/
def Polygon.insert (l : List Point) (p : Point) : List Point :=
  match l with
  | [] => [p]
  | v :: rest => v :: p :: rest

/-- A polygon built by calling Polygon::insert on each point in order,
as main of server.cpp does while parsing a request. -/
def buildPolygon (ps : List Point) : List Point := ps.foldl Polygon.insert []

/-- The copy constructor of Polygon: traverse the source ring clockwise
starting at its cursor and insert every point in turn into a fresh
polygon. -/
def polyCopy (l : List Point) : List Point := l.foldl Polygon.insert []

/-- Polygon::advance(CLOCKWISE): the cursor moves to the next vertex, so
the clockwise list starting at the cursor rotates by one. -/
def rot1 {α : Type} : List α → List α
  | [] => []
  | v :: rest => rest ++ [v]

/-- Polygon::edge: throws (none) on an empty polygon, otherwise the edge
from the cursor vertex to its clockwise neighbor; in a one element ring
the neighbor is the vertex itself. -/
def Polygon.edge : List Point → Option Edge
  | [] => none
  | [v] => some ⟨v, v⟩
  | v :: w :: _ => some ⟨v, w⟩

/-- The inside test of clipPolygonToEdge: classification different from
LEFT counts as inside. -/
def insideB (p : Point) (e : Edge) : Bool :=
  match p.classify e with
  | PointClassification.LEFT => false
  | _ => true

/-- One iteration of the loop of clipPolygonToEdge: org and dest are the
endpoints of the current subject edge, acc the result polygon built so
far.  When the endpoints straddle the clip edge the code reads the out
parameter of Edge::intersect without checking the return value; if that
parameter was never assigned the read is undefined and the model yields
none. -/
def clipIter (e : Edge) (org dest : Point) (acc : List Point) : Option (List Point) :=
  if insideB org e ≠ insideB dest e then
    match (Edge.intersect e ⟨org, dest⟩).2 with
    | none => none
    | some t =>
      if insideB org e then some (Polygon.insert acc (e.point t))
      else some (Polygon.insert (Polygon.insert acc (e.point t)) dest)
  else if insideB org e then some (Polygon.insert acc dest)
  else some acc

/-- The loop of clipPolygonToEdge: n counts the remaining iterations, s
is the subject polygon with its current cursor at the head, acc the
result polygon.  Each pass handles the edge from the cursor to its
clockwise neighbor and then advances the cursor clockwise.  The final
state returns both the subject (to record the cursor position after the
loop) and the result. -/
def clipLoop (e : Edge) : Nat → List Point → List Point → Option (List Point × List Point)
  | 0, s, acc => some (s, acc)
  | n + 1, s, acc =>
    match s with
    | [] => none
    | org :: rest =>
      match clipIter e org (rest.headD org) acc with
      | none => none
      | some acc2 => clipLoop e n (rot1 (org :: rest)) acc2

/-- clipPolygonToEdge of server.cpp: run the loop subject.size() times;
the result triple is the subject after the loop, the result polygon
(always stored into the out parameter), and the bool return value
result.size() > 0. -/
def clipPolygonToEdge (s : List Point) (e : Edge) : Option (List Point × List Point × Bool) :=
  match clipLoop e s.length s [] with
  | none => none
  | some (s2, acc) => some (s2, acc, if 0 < acc.length then true else false)

/-- The loop of clipPolygon: n counts the remaining iterations, p is the
cutting polygon with its cursor at the head, q the working polygon.
Each pass clips q against the current cutter edge; a step whose result
polygon is empty returns false at once (modelled some none: failure with
no result polygon), otherwise the result replaces q and the cutter
cursor advances clockwise.  The outer none marks the undefined read
described at clipIter. -/
def clipFold : Nat → List Point → List Point → Option (Option (List Point))
  | 0, _, q => some (some q)
  | n + 1, p, q =>
    match p with
    | [] => none
    | org :: rest =>
      match clipPolygonToEdge q ⟨org, rest.headD org⟩ with
      | none => none
      | some (_, r, ok) => if ok then clipFold n (rot1 (org :: rest)) r else some none

/-- clipPolygon of server.cpp: start from a copy of the subject and fold
the single edge clip over the cutter.size() edges of the cutter. -/
def clipPolygon (s p : List Point) : Option (Option (List Point)) :=
  clipFold p.length p (polyCopy s)

/-- Scalar multiple of a vector; used only to state collinearity in the
characterization of Point::classify. -/
def Point.scale (k : ℚ) (p : Point) : Point := ⟨k * p.x, k * p.y⟩

/-! Pointer level model of the Vertex ring.  A VNode is one Vertex on the
heap: its point and the raw next and prev links, as numeric addresses.
The heap is an association list from addresses to nodes; PolyMem is the
Polygon object: the heap it owns, the cursor _v (none for null), the
count _size, and the next address a new vertex would get. -/

/-- One Vertex node: point value plus next and prev addresses. -/
structure VNode where
  pt : Point
  nxt : Nat
  prv : Nat
deriving DecidableEq

/-- Dereference an address in the heap. -/
def lookupV : List (Nat × VNode) → Nat → Option VNode
  | [], _ => none
  | (i, n) :: rest, j => if j = i then some n else lookupV rest j

/-- Update the node at one address in place. -/
def setV (h : List (Nat × VNode)) (i : Nat) (f : VNode → VNode) : List (Nat × VNode) :=
  h.map fun q => if q.1 = i then (q.1, f q.2) else q

/-- The state of one Polygon object: heap, cursor, size, next fresh
address. -/
structure PolyMem where
  verts : List (Nat × VNode)
  cursor : Option Nat
  size : Nat
  fresh : Nat

/-- The default constructor Polygon(): no vertices, null cursor. -/
def emptyMem : PolyMem := ⟨[], none, 0, 0⟩

/-- Polygon::insert at the pointer level.  Empty polygon: the new node
becomes the cursor and links to itself.  Otherwise Vertex::insert runs
on the cursor c in the order of the C++ statements: the new node v gets
next = c.next and prev = c, then the old c.next node gets prev = v, then
c gets next = v.  The unreachable branch (cursor set but dangling)
returns the state unchanged. -/
def insertMem (m : PolyMem) (p : Point) : PolyMem :=
  match m.cursor with
  | none =>
    ⟨(m.fresh, ⟨p, m.fresh, m.fresh⟩) :: m.verts, some m.fresh, m.size + 1, m.fresh + 1⟩
  | some c =>
    match lookupV m.verts c with
    | none => m
    | some cn =>
      ⟨setV (setV ((m.fresh, ⟨p, cn.nxt, c⟩) :: m.verts) cn.nxt fun n => ⟨n.pt, n.nxt, m.fresh⟩)
          c fun n => ⟨n.pt, m.fresh, n.prv⟩,
        some c, m.size + 1, m.fresh + 1⟩

/-- Polygon::advance at the pointer level: move the cursor to its next
(clockwise, cw = true) or prev (counter clockwise) neighbor.  A null or
dangling cursor would be undefined in C++; the model returns the state
unchanged there. -/
def advanceMem (m : PolyMem) (cw : Bool) : PolyMem :=
  match m.cursor with
  | none => m
  | some c =>
    match lookupV m.verts c with
    | none => m
    | some n => ⟨m.verts, some (if cw then n.nxt else n.prv), m.size, m.fresh⟩

/-- The clockwise point sequence read by the copy constructor: follow
next links from v, size steps.  For a well formed ring this is exactly
the do-while traversal of the C++ copy constructor, which stops on
returning to the start vertex. -/
def collectPts (h : List (Nat × VNode)) : Nat → Nat → List Point
  | 0, _ => []
  | k + 1, v =>
    match lookupV h v with
    | none => []
    | some n => n.pt :: collectPts h k n.nxt

/-- The copy constructor at the pointer level: a fresh polygon grown by
insert over the clockwise traversal of the source. -/
def copyMem (m : PolyMem) : PolyMem :=
  match m.cursor with
  | none => emptyMem
  | some c => (collectPts m.verts m.size c).foldl insertMem emptyMem

/-- The Polygon states reachable through the operations of the class:
the default constructor, insert, advance in either direction, and the
copy constructor.  The result polygons of clipPolygonToEdge and
clipPolygon are built through exactly these operations (a default
construction followed by inserts). -/
inductive Built : PolyMem → Prop where
  | empty : Built emptyMem
  | ins (p : Point) {m : PolyMem} : Built m → Built (insertMem m p)
  | adv (cw : Bool) {m : PolyMem} : Built m → Built (advanceMem m cw)
  | copy {m : PolyMem} : Built m → Built (copyMem m)

/-- Follow next links k times from address v. -/
def follow (h : List (Nat × VNode)) : Nat → Nat → Option Nat
  | 0, v => some v
  | k + 1, v =>
    match lookupV h v with
    | none => none
    | some n => follow h k (n.nxt)

/-- The prev links invert the next links at v: the node v points to has
prev = v, and the node v points back to has next = v. -/
def invLinks (h : List (Nat × VNode)) (v : Nat) : Prop :=
  ∃ n, lookupV h v = some n ∧
    (∃ a, lookupV h n.nxt = some a ∧ a.prv = v) ∧
    (∃ b, lookupV h n.prv = some b ∧ b.nxt = v)

/-- The ring invariant of the spec: a polygon of size 0 has a null
cursor, and in a polygon of positive size every vertex of the ring (any
vertex reachable from the cursor) returns to itself after exactly size
next steps, with prev inverting next. -/
def RingInvariant (m : PolyMem) : Prop :=
  (m.size = 0 → m.cursor = none) ∧
  ∀ c, m.cursor = some c →
    ∀ k, k < m.size → ∀ v, follow m.verts k c = some v →
      follow m.verts m.size v = some v ∧ invLinks m.verts v

/-- The heap h holds the addresses of l as a doubly linked chain:
the first node of l has prev = prevv, consecutive nodes point at each
other, and the last node has next = nextv. -/
def chain (h : List (Nat × VNode)) : Nat → List Nat → Nat → Prop
  | _, [], _ => True
  | prevv, v :: tl, nextv =>
    ∃ n, lookupV h v = some n ∧ n.prv = prevv ∧ n.nxt = tl.headD nextv ∧
      chain h v tl nextv

/-- The heap h realizes the ring r (the list of addresses read clockwise
from the cursor): the chain closes on itself, the first node pointing
back at the last and the last node pointing forward at the first. -/
def ringAll (h : List (Nat × VNode)) : List Nat → Prop
  | [] => True
  | c :: rest => chain h ((c :: rest).getD ((c :: rest).length - 1) 0) (c :: rest) c

/-- The inductive strengthening of RingInvariant: some duplicate free
ring starting at the cursor is realized by the heap, all its addresses
are below the allocation counter, and the heap keys are duplicate free
and below the counter. -/
def StrongInv (m : PolyMem) : Prop :=
  ∃ r : List Nat,
    m.cursor = r.head? ∧ m.size = r.length ∧ r.Nodup ∧
    (∀ i ∈ r, i < m.fresh) ∧
    (m.verts.map Prod.fst).Nodup ∧
    (∀ i ∈ m.verts.map Prod.fst, i < m.fresh) ∧
    ringAll m.verts r

/-! Helper lemmas shared by several of the claim theorems below. -/

theorem insideB_iff (p : Point) (e : Edge) :
    insideB p e = true ↔ p.classify e ≠ PointClassification.LEFT := by
  unfold insideB
  cases h : p.classify e <;> simp [h]

theorem insideB_false_iff (p : Point) (e : Edge) :
    insideB p e = false ↔ p.classify e = PointClassification.LEFT := by
  unfold insideB
  cases h : p.classify e <;> simp [h]

theorem classify_LEFT_iff (p : Point) (e : Edge) :
    p.classify e = PointClassification.LEFT ↔ 0 < crossSA p e := by
  unfold Point.classify
  split_ifs <;> simp_all

theorem classify_RIGHT_iff (p : Point) (e : Edge) :
    p.classify e = PointClassification.RIGHT ↔ crossSA p e < 0 := by
  unfold Point.classify
  split_ifs <;> simp_all
  linarith

theorem rot1_eq_rotate {α : Type} (l : List α) : rot1 l = l.rotate 1 := by
  cases l with
  | nil => simp [rot1]
  | cons v rest => simp [rot1, List.rotate_cons_succ]

theorem foldl_insert_cons (ps : List Point) (v : Point) (acc : List Point) :
    ps.foldl Polygon.insert (v :: acc) = v :: (ps.reverse ++ acc) := by
  induction ps generalizing acc with
  | nil => simp
  | cons p ps ih => simp [Polygon.insert, ih (p :: acc)]

theorem clipLoop_subject (e : Edge) :
    ∀ (n : Nat) (s acc : List Point) (out : List Point × List Point),
      clipLoop e n s acc = some out → out.1 = s.rotate n := by
  intro n
  induction n with
  | zero =>
    intro s acc out h
    have h2 : some (s, acc) = some out := h
    injection h2 with h3
    rw [← h3]
    simp
  | succ k ih =>
    intro s acc out h
    match s with
    | [] => exact absurd h (by intro hh; exact Option.noConfusion hh)
    | org :: rest =>
      have h2 : (match clipIter e org (rest.headD org) acc with
          | none => (none : Option (List Point × List Point))
          | some acc2 => clipLoop e k (rot1 (org :: rest)) acc2) = some out := h
      cases hc : clipIter e org (rest.headD org) acc with
      | none => rw [hc] at h2; exact absurd h2 (by simp)
      | some acc2 =>
        rw [hc] at h2
        have h3 : clipLoop e k (rot1 (org :: rest)) acc2 = some out := h2
        have := ih (rot1 (org :: rest)) acc2 out h3
        rw [this, rot1_eq_rotate, List.rotate_rotate]
        ring_nf

theorem clipToEdge_flag (s : List Point) (e : Edge) (s2 acc : List Point) (ok : Bool) :
    clipPolygonToEdge s e = some (s2, acc, ok) → (ok = true ↔ acc ≠ []) := by
  intro h
  unfold clipPolygonToEdge at h
  cases hl : clipLoop e s.length s [] with
  | none => rw [hl] at h; exact absurd h (by simp)
  | some pair =>
    rw [hl] at h
    obtain ⟨p1, p2⟩ := pair
    injection h with h2
    have hacc : p2 = acc := congrArg (fun z => z.2.1) h2
    have hok : (if 0 < p2.length then true else false) = ok := congrArg (fun z => z.2.2) h2
    subst hacc
    rw [← hok]
    split_ifs with hlen
    · simp [List.ne_nil_of_length_pos hlen]
    · have hnil : p2 = [] := List.length_eq_zero.mp (by omega)
      simp [hnil]

theorem clipFold_ok_ne_nil :
    ∀ (n : Nat) (p q r : List Point), 0 < n → clipFold n p q = some (some r) → r ≠ [] := by
  intro n
  induction n with
  | zero => intro p q r h; omega
  | succ k ih =>
    intro p q r hpos h
    match p with
    | [] => exact absurd h (by intro hh; exact Option.noConfusion hh)
    | org :: rest =>
      have h2 : (match clipPolygonToEdge q ⟨org, rest.headD org⟩ with
          | none => (none : Option (Option (List Point)))
          | some (_, r2, ok) => if ok then clipFold k (rot1 (org :: rest)) r2
              else some none) = some (some r) := h
      cases hc : clipPolygonToEdge q ⟨org, rest.headD org⟩ with
      | none => rw [hc] at h2; exact absurd h2 (by simp)
      | some trip =>
        obtain ⟨s2, acc, ok⟩ := trip
        rw [hc] at h2
        have h3 : (if ok = true then clipFold k (rot1 (org :: rest)) acc
            else some none) = some (some r) := h2
        cases ok with
        | false => rw [if_neg (by simp)] at h3; exact absurd h3 (by simp)
        | true =>
          rw [if_pos rfl] at h3
          rcases Nat.eq_zero_or_pos k with hk | hk
          · subst hk
            have h4 : some (some acc) = some (some r) := h3
            injection h4 with h5
            injection h5 with h6
            rw [← h6]
            exact (clipToEdge_flag q _ s2 acc true hc).mp rfl
          · exact ih (rot1 (org :: rest)) acc r hk h3

/-- Claim C8: Polygon::edge raises an error exactly on a polygon with
zero vertices; on a polygon with at least one vertex it returns, without
modifying the polygon (the model function is pure and takes the ring by
value), the edge from the cursor vertex to its clockwise neighbor. -/
theorem edge_empty_check (l : List Point) :
    (Polygon.edge l = none ↔ l = []) ∧
    ∀ (h : l ≠ []), Polygon.edge l = some ⟨l.head h, l.tail.headD (l.head h)⟩ := by
  rcases l with _ | ⟨v, _ | ⟨w, rest⟩⟩ <;> simp [Polygon.edge]

/-- Application of edge_empty_check at a concrete one vertex polygon. -/
theorem edge_empty_check_witness :
    Polygon.edge [(⟨1, 2⟩ : Point)] = some ⟨⟨1, 2⟩, ⟨1, 2⟩⟩ := by
  have h := (edge_empty_check [(⟨1, 2⟩ : Point)]).2 (by simp)
  simpa using h

/-- Claim C2 (amended): the copy constructor preserves the vertex count,
but its clockwise traversal from the cursor visits the cursor point of
the original followed by the remaining points of the clockwise traversal
of the original in reverse order; the ring is deep copied (fresh list),
yet not in traversal order. -/
theorem copy_reverses_order (v : Point) (rest : List Point) :
    polyCopy (v :: rest) = v :: rest.reverse ∧
    (polyCopy (v :: rest)).length = (v :: rest).length := by
  have h : polyCopy (v :: rest) = v :: rest.reverse := by
    unfold polyCopy
    have h0 : Polygon.insert [] v = [v] := rfl
    rw [List.foldl_cons, h0]
    have := foldl_insert_cons rest v []
    simpa using this
  exact ⟨h, by rw [h]; simp⟩

/-- Counterexample to claim C2 as stated: for the ring holding the three
points (0,0), (1,0), (2,5) clockwise from the cursor, the copy
constructor yields the clockwise sequence (0,0), (2,5), (1,0) - the
count matches but the traversal order does not. -/
theorem copy_order_cex :
    polyCopy [(⟨0, 0⟩ : Point), ⟨1, 0⟩, ⟨2, 5⟩] ≠ [(⟨0, 0⟩ : Point), ⟨1, 0⟩, ⟨2, 5⟩] ∧
    (polyCopy [(⟨0, 0⟩ : Point), ⟨1, 0⟩, ⟨2, 5⟩]).length = 3 := by
  constructor
  · intro h
    have := congrArg (fun l => l.getD 1 (⟨0, 0⟩ : Point)) h
    simp [polyCopy, Polygon.insert] at this
  · norm_num [polyCopy, Polygon.insert]

/-- Claim C9: clipPolygonToEdge advances the subject cursor clockwise
once per visited edge, subject.size() times in all, so the subject comes
back to its pre-call state: the loop leaves the subject rotated by the
iteration count, and a full pass of size steps is the identity
rotation. -/
theorem clip_to_edge_frame (e : Edge) (s : List Point) (_h : s ≠ []) :
    (∀ (n : Nat) (s0 acc : List Point) (out : List Point × List Point),
      clipLoop e n s0 acc = some out → out.1 = s0.rotate n) ∧
    ∀ out, clipPolygonToEdge s e = some out → out.1 = s := by
  refine ⟨clipLoop_subject e, ?_⟩
  intro out hout
  unfold clipPolygonToEdge at hout
  cases hl : clipLoop e s.length s [] with
  | none => rw [hl] at hout; exact absurd hout (by simp)
  | some pair =>
    rw [hl] at hout
    injection hout with h2
    have := clipLoop_subject e s.length s [] pair hl
    rw [← h2]
    simpa [List.rotate_length] using this

/-- Application of clip_to_edge_frame to a concrete one vertex subject:
the subject returned by the clip step is the original subject. -/
theorem clip_to_edge_frame_witness :
    (([(⟨0, 0⟩ : Point)], [(⟨0, 0⟩ : Point)], true) : List Point × List Point × Bool).1 =
      [(⟨0, 0⟩ : Point)] := by
  refine (clip_to_edge_frame ⟨⟨0, 0⟩, ⟨1, 0⟩⟩ [⟨0, 0⟩] (by simp)).2 _ ?_
  norm_num [clipPolygonToEdge, clipLoop, clipIter, insideB, Point.classify, crossSA,
    Point.sub, Point.len2, Point.peq, eps, rot1, Polygon.insert]

/-- Claim C5: as soon as one single edge clip step yields an empty
polygon, clipPolygon returns failure at once - the value some none,
which carries no result polygon, whatever the number of remaining cutter
edges - and on success, for a non empty cutter, the returned polygon is
non empty. -/
theorem clip_failfast :
    (∀ (k : Nat) (org : Point) (rest : List Point) (q s2 : List Point),
      clipPolygonToEdge q ⟨org, rest.headD org⟩ = some (s2, [], false) →
      clipFold (k + 1) (org :: rest) q = some none) ∧
    ∀ (s p r : List Point), p ≠ [] → clipPolygon s p = some (some r) → r ≠ [] := by
  constructor
  · intro k org rest q s2 hstep
    have h2 : clipFold (k + 1) (org :: rest) q =
        (match clipPolygonToEdge q ⟨org, rest.headD org⟩ with
          | none => (none : Option (Option (List Point)))
          | some (_, r2, ok) => if ok then clipFold k (rot1 (org :: rest)) r2
              else some none) := rfl
    rw [h2, hstep]
    rfl
  · intro s p r hp h
    have hlen : 0 < p.length := List.length_pos.mpr hp
    exact clipFold_ok_ne_nil p.length p (polyCopy s) r hlen h

/-- Application of clip_failfast at a concrete input: the subject (0,0)
lies strictly left of the cutter edge from (0,-1) to (1,-1), the first
clip step is empty, and the fold fails at once with four more edges to
go. -/
theorem clip_failfast_witness :
    clipFold 5 [(⟨0, -1⟩ : Point), ⟨1, -1⟩] [(⟨0, 0⟩ : Point)] = some none := by
  refine clip_failfast.1 4 ⟨0, -1⟩ [⟨1, -1⟩] [⟨0, 0⟩] [⟨0, 0⟩] ?_
  norm_num [clipPolygonToEdge, clipLoop, clipIter, insideB, Point.classify, crossSA,
    Point.sub, Point.len2, Point.peq, eps, rot1, Polygon.insert]

/-- Claim C1 (amended): in the single edge clip an endpoint is treated
as inside exactly when its classification against the clip edge is NOT
LEFT; in particular the boundary incident classifications ORIGIN,
DESTINATION and BETWEEN are treated as inside, and two LEFT endpoints
emit nothing while two non LEFT endpoints emit the edge destination. -/
theorem inside_test_not_left (e : Edge) (org dest : Point) (acc : List Point) :
    (insideB org e = true ↔ org.classify e ≠ PointClassification.LEFT) ∧
    ((org.classify e = PointClassification.ORIGIN ∨
        org.classify e = PointClassification.DESTINATION ∨
        org.classify e = PointClassification.BETWEEN) → insideB org e = true) ∧
    (org.classify e ≠ PointClassification.LEFT → dest.classify e ≠ PointClassification.LEFT →
      clipIter e org dest acc = some (Polygon.insert acc dest)) ∧
    (org.classify e = PointClassification.LEFT → dest.classify e = PointClassification.LEFT →
      clipIter e org dest acc = some acc) := by
  refine ⟨insideB_iff org e, ?_, ?_, ?_⟩
  · intro h
    rcases h with h | h | h <;> simp [insideB, h]
  · intro h1 h2
    have b1 : insideB org e = true := (insideB_iff org e).mpr h1
    have b2 : insideB dest e = true := (insideB_iff dest e).mpr h2
    simp [clipIter, b1, b2]
  · intro h1 h2
    have b1 : insideB org e = false := (insideB_false_iff org e).mpr h1
    have b2 : insideB dest e = false := (insideB_false_iff dest e).mpr h2
    simp [clipIter, b1, b2]

/-- Application of inside_test_not_left at a concrete input: both
endpoints classify RIGHT of the edge from (0,0) to (1,0), so the step
emits the destination. -/
theorem inside_test_not_left_witness :
    clipIter ⟨⟨0, 0⟩, ⟨1, 0⟩⟩ ⟨0, -1⟩ ⟨5, -1⟩ [] = some [⟨5, -1⟩] := by
  refine (inside_test_not_left ⟨⟨0, 0⟩, ⟨1, 0⟩⟩ ⟨0, -1⟩ ⟨5, -1⟩ []).2.2.1 ?_ ?_ <;>
    (norm_num [Point.classify, crossSA, Point.sub, Point.len2, Point.peq, eps]; try decide)

/-- Counterexample to claim C1 as stated: the point (0,1) classifies
LEFT of the edge from (0,0) to (1,0) yet the clip treats it as outside,
and the point (0,0) classifies ORIGIN (boundary incident) yet the clip
treats it as inside - the opposite of the claimed convention. -/
theorem inside_test_cex :
    Point.classify ⟨0, 1⟩ ⟨⟨0, 0⟩, ⟨1, 0⟩⟩ = PointClassification.LEFT ∧
    insideB ⟨0, 1⟩ ⟨⟨0, 0⟩, ⟨1, 0⟩⟩ = false ∧
    Point.classify ⟨0, 0⟩ ⟨⟨0, 0⟩, ⟨1, 0⟩⟩ = PointClassification.ORIGIN ∧
    insideB ⟨0, 0⟩ ⟨⟨0, 0⟩, ⟨1, 0⟩⟩ = true := by
  norm_num [insideB, Point.classify, crossSA, Point.sub, Point.len2, Point.peq, eps]

/-- The determinant of Edge::intersect between a clip edge and the
subject edge from org to dest equals the difference of the two cross
products used to classify org and dest. -/
theorem edgeDet_eq_crossSA_sub (e : Edge) (org dest : Point) :
    edgeDet e ⟨org, dest⟩ = crossSA org e - crossSA dest e := by
  unfold edgeDet crossSA Point.sub
  ring

/-- Claim C10 (amended): when the endpoints of a subject edge straddle
the inside test, the determinant of the intersect call is nonzero in
exact arithmetic; whenever its absolute value also reaches 1e-15, the
out parameter t is assigned before clipPolygonToEdge reads it.  (The
bool result of Edge::intersect, which the clip ignores, may still be
false: t or u may fall outside [0,1], and a nonzero determinant below
1e-15 leaves t unassigned.) -/
theorem straddle_det_nonzero (e : Edge) (org dest : Point)
    (h : insideB org e ≠ insideB dest e) :
    edgeDet e ⟨org, dest⟩ ≠ 0 ∧
    (eps ≤ |edgeDet e ⟨org, dest⟩| →
      (Edge.intersect e ⟨org, dest⟩).2 = some (intT e ⟨org, dest⟩)) := by
  constructor
  · rw [edgeDet_eq_crossSA_sub]
    cases borg : insideB org e <;> cases bdest : insideB dest e
    · rw [borg, bdest] at h; exact absurd rfl h
    · have h1 : 0 < crossSA org e :=
        (classify_LEFT_iff org e).mp ((insideB_false_iff org e).mp borg)
      have h2 : crossSA dest e ≤ 0 := not_lt.mp fun hc =>
        (insideB_iff dest e).mp bdest ((classify_LEFT_iff dest e).mpr hc)
      intro hz
      linarith
    · have h1 : crossSA org e ≤ 0 := not_lt.mp fun hc =>
        (insideB_iff org e).mp borg ((classify_LEFT_iff org e).mpr hc)
      have h2 : 0 < crossSA dest e :=
        (classify_LEFT_iff dest e).mp ((insideB_false_iff dest e).mp bdest)
      intro hz
      linarith
    · rw [borg, bdest] at h; exact absurd rfl h
  · intro hge
    unfold Edge.intersect
    rw [if_neg (not_lt.mpr hge)]
    split_ifs <;> rfl

/-- Application of straddle_det_nonzero at a concrete straddling edge:
the subject edge from (5,-1) to (5,1) straddles the clip edge from
(0,0) to (1,0). -/
theorem straddle_det_nonzero_witness :
    edgeDet ⟨⟨0, 0⟩, ⟨1, 0⟩⟩ ⟨⟨5, -1⟩, ⟨5, 1⟩⟩ ≠ 0 ∧
    (eps ≤ |edgeDet ⟨⟨0, 0⟩, ⟨1, 0⟩⟩ ⟨⟨5, -1⟩, ⟨5, 1⟩⟩| →
      (Edge.intersect ⟨⟨0, 0⟩, ⟨1, 0⟩⟩ ⟨⟨5, -1⟩, ⟨5, 1⟩⟩).2 =
        some (intT ⟨⟨0, 0⟩, ⟨1, 0⟩⟩ ⟨⟨5, -1⟩, ⟨5, 1⟩⟩)) :=
  straddle_det_nonzero ⟨⟨0, 0⟩, ⟨1, 0⟩⟩ ⟨5, -1⟩ ⟨5, 1⟩ (by
    norm_num [insideB, Point.classify, crossSA, Point.sub, Point.len2, Point.peq, eps])

/-- Counterexample to claim C10 as stated: the endpoints (5,-1) and
(5,1) classify to opposite sides of the inside test against the clip
edge from (0,0) to (1,0), the determinant is -2, yet Edge::intersect
reports failure: the assigned parameter t = 5 lies outside [0,1] (the
crossing point sits on the extension of the clip edge, not within it). -/
theorem straddle_intersect_cex :
    insideB ⟨5, -1⟩ ⟨⟨0, 0⟩, ⟨1, 0⟩⟩ = true ∧
    insideB ⟨5, 1⟩ ⟨⟨0, 0⟩, ⟨1, 0⟩⟩ = false ∧
    (Edge.intersect ⟨⟨0, 0⟩, ⟨1, 0⟩⟩ ⟨⟨5, -1⟩, ⟨5, 1⟩⟩).1 = false ∧
    intT ⟨⟨0, 0⟩, ⟨1, 0⟩⟩ ⟨⟨5, -1⟩, ⟨5, 1⟩⟩ = 5 := by
  norm_num [insideB, Point.classify, crossSA, Point.sub, Point.len2, Point.peq,
    Edge.intersect, intT, intU, edgeDet, eps]

/-- Claim C4: evaluation of Edge::intersect at the failing input.  The
segments from (0,0) to (2,0) and from (1,-1) to (1,1) cross at (1,0),
interior to both (parameter 1/2 along each), and the determinant is -4,
far above 1e-15; yet the call reports no intersection, because the code
computes u with the wrong sign, (e1*c - e2*a)/denom = -1/2 instead of
+1/2, and the [0,1] range check then fails.  This contradicts the spec
of intersect (and the doc comment of the function: true when the
intersection exists). -/
theorem intersect_misses_interior_crossing :
    (Edge.intersect ⟨⟨0, 0⟩, ⟨2, 0⟩⟩ ⟨⟨1, -1⟩, ⟨1, 1⟩⟩).1 = false ∧
    eps ≤ |edgeDet ⟨⟨0, 0⟩, ⟨2, 0⟩⟩ ⟨⟨1, -1⟩, ⟨1, 1⟩⟩| ∧
    intT ⟨⟨0, 0⟩, ⟨2, 0⟩⟩ ⟨⟨1, -1⟩, ⟨1, 1⟩⟩ = 1 / 2 ∧
    Edge.point ⟨⟨0, 0⟩, ⟨2, 0⟩⟩ (1 / 2) = Edge.point ⟨⟨1, -1⟩, ⟨1, 1⟩⟩ (1 / 2) ∧
    intU ⟨⟨0, 0⟩, ⟨2, 0⟩⟩ ⟨⟨1, -1⟩, ⟨1, 1⟩⟩ = -(1 / 2) := by
  norm_num [Edge.intersect, intT, intU, edgeDet, Edge.point, eps]

set_option maxHeartbeats 2000000 in
/-- Claim C3: clipping the square built by inserting (0,0), (2,0),
(2,2), (0,2) against the cutter built by inserting (1,1), (3,1), (3,3),
(1,3) succeeds with a polygon of exactly 4 vertices whose clockwise
sequence is the claimed [(2,2), (1,2), (1,1), (2,1)] rotated by two
positions.  (No step of the run reads an unassigned intersection
parameter, so the model run is a faithful run of the code.) -/
theorem clip_squares_scenario :
    clipPolygon (buildPolygon [⟨0, 0⟩, ⟨2, 0⟩, ⟨2, 2⟩, ⟨0, 2⟩])
        (buildPolygon [⟨1, 1⟩, ⟨3, 1⟩, ⟨3, 3⟩, ⟨1, 3⟩]) =
      some (some (List.rotate [⟨2, 2⟩, ⟨1, 2⟩, ⟨1, 1⟩, ⟨2, 1⟩] 2)) ∧
    (List.rotate [(⟨2, 2⟩ : Point), ⟨1, 2⟩, ⟨1, 1⟩, ⟨2, 1⟩] 2).length = 4 := by
  have hrot : List.rotate [(⟨2, 2⟩ : Point), ⟨1, 2⟩, ⟨1, 1⟩, ⟨2, 1⟩] 2 =
      [⟨1, 1⟩, ⟨2, 1⟩, ⟨2, 2⟩, ⟨1, 2⟩] := rfl
  rw [hrot]
  constructor
  · norm_num [clipPolygon, clipFold, clipPolygonToEdge, clipLoop, clipIter, insideB,
      Point.classify, Edge.intersect, intT, intU, edgeDet, Edge.point, crossSA,
      Point.sub, Point.len2, Point.peq, eps, buildPolygon, polyCopy, Polygon.insert,
      rot1, List.headD]
  · rfl

/-- Claim C6: Point::classify returns exactly one of the seven classes:
LEFT exactly when the cross product of (dest - org) and (p - org) is
strictly positive, RIGHT exactly when it is strictly negative; and when
the cross product is zero and p - org = lam * (dest - org) along a non
degenerate edge, BEHIND exactly when lam < 0 (opposite the edge
direction), BEYOND exactly when lam > 1 (past the destination), and for
lam in [0,1] ORIGIN exactly when p coincides with the edge start,
DESTINATION exactly when p coincides with the edge end (and not with the
start), BETWEEN otherwise - coincidence being the approximate point
equality the code uses. -/
theorem classify_cases (p : Point) (e : Edge) :
    (p.classify e = PointClassification.LEFT ↔ 0 < crossSA p e) ∧
    (p.classify e = PointClassification.RIGHT ↔ crossSA p e < 0) ∧
    ∀ lam : ℚ, crossSA p e = 0 → e.dest.sub e.org ≠ ⟨0, 0⟩ →
      p.sub e.org = Point.scale lam (e.dest.sub e.org) →
      ((p.classify e = PointClassification.BEHIND ↔ lam < 0) ∧
        (p.classify e = PointClassification.BEYOND ↔ 1 < lam) ∧
        (0 ≤ lam → lam ≤ 1 →
          ((p.classify e = PointClassification.ORIGIN ↔ Point.peq e.org p) ∧
            (p.classify e = PointClassification.DESTINATION ↔
              ¬ Point.peq e.org p ∧ Point.peq e.dest p) ∧
            (p.classify e = PointClassification.BETWEEN ↔
              ¬ Point.peq e.org p ∧ ¬ Point.peq e.dest p)))) := by
  refine ⟨classify_LEFT_iff p e, classify_RIGHT_iff p e, ?_⟩
  intro lam hsa ha hb
  have hbx : (p.sub e.org).x = lam * (e.dest.sub e.org).x := by rw [hb]; rfl
  have hby : (p.sub e.org).y = lam * (e.dest.sub e.org).y := by rw [hb]; rfl
  have ha2 : (e.dest.sub e.org).x ≠ 0 ∨ (e.dest.sub e.org).y ≠ 0 := by
    by_contra hc
    push_neg at hc
    refine ha ?_
    calc e.dest.sub e.org = ⟨(e.dest.sub e.org).x, (e.dest.sub e.org).y⟩ := rfl
      _ = ⟨0, 0⟩ := by rw [hc.1, hc.2]
  have hC_iff : ((e.dest.sub e.org).x * (p.sub e.org).x < 0 ∨
      (e.dest.sub e.org).y * (p.sub e.org).y < 0) ↔ lam < 0 := by
    rw [hbx, hby]
    constructor
    · intro hc
      rcases hc with hc | hc <;>
        nlinarith [mul_self_nonneg (e.dest.sub e.org).x, mul_self_nonneg (e.dest.sub e.org).y]
    · intro hl
      rcases ha2 with hax | hay
      · exact Or.inl (by nlinarith [mul_self_pos.mpr hax])
      · exact Or.inr (by nlinarith [mul_self_pos.mpr hay])
  have hs : 0 < (e.dest.sub e.org).len2 := by
    unfold Point.len2
    rcases ha2 with hax | hay
    · nlinarith [mul_self_pos.mpr hax, mul_self_nonneg (e.dest.sub e.org).y]
    · nlinarith [mul_self_pos.mpr hay, mul_self_nonneg (e.dest.sub e.org).x]
  have hBlen : (p.sub e.org).len2 = lam * lam * (e.dest.sub e.org).len2 := by
    unfold Point.len2
    rw [hbx, hby]
    ring
  have hbeyond_pos : 1 < lam → (e.dest.sub e.org).len2 < (p.sub e.org).len2 := by
    intro hl
    rw [hBlen]
    nlinarith [mul_pos (mul_pos (by linarith : (0 : ℚ) < lam - 1)
      (by linarith : (0 : ℚ) < lam + 1)) hs]
  have hbeyond_neg : 0 ≤ lam → lam ≤ 1 →
      ¬ ((e.dest.sub e.org).len2 < (p.sub e.org).len2) := by
    intro h0 h1
    rw [hBlen]
    nlinarith [mul_nonneg (mul_nonneg (by linarith : (0 : ℚ) ≤ 1 - lam)
      (by linarith : (0 : ℚ) ≤ 1 + lam)) (le_of_lt hs)]
  have hclass : p.classify e =
      (if (e.dest.sub e.org).x * (p.sub e.org).x < 0 ∨
          (e.dest.sub e.org).y * (p.sub e.org).y < 0 then PointClassification.BEHIND
        else if (e.dest.sub e.org).len2 < (p.sub e.org).len2 then PointClassification.BEYOND
        else if Point.peq e.org p then PointClassification.ORIGIN
        else if Point.peq e.dest p then PointClassification.DESTINATION
        else PointClassification.BETWEEN) := by
    unfold Point.classify
    rw [hsa]
    simp
  have hR1 : lam < 0 → p.classify e = PointClassification.BEHIND := fun hl => by
    rw [hclass, if_pos (hC_iff.mpr hl)]
  have hR2 : 1 < lam → p.classify e = PointClassification.BEYOND := fun hl => by
    rw [hclass, if_neg (fun hc => absurd (hC_iff.mp hc) (by linarith)),
      if_pos (hbeyond_pos hl)]
  have hR3 : 0 ≤ lam → lam ≤ 1 → p.classify e =
      (if Point.peq e.org p then PointClassification.ORIGIN
        else if Point.peq e.dest p then PointClassification.DESTINATION
        else PointClassification.BETWEEN) := fun h0 h1 => by
    rw [hclass, if_neg (fun hc => absurd (hC_iff.mp hc) (by linarith)),
      if_neg (hbeyond_neg h0 h1)]
  refine ⟨?_, ?_, ?_⟩
  · constructor
    · intro hcl
      rcases lt_trichotomy lam 0 with hl | hl | hl
      · exact hl
      · exfalso
        rw [hR3 (le_of_eq hl.symm) (by linarith)] at hcl
        split_ifs at hcl
      · exfalso
        rcases le_or_lt lam 1 with h1 | h1
        · rw [hR3 (le_of_lt hl) h1] at hcl
          split_ifs at hcl
        · rw [hR2 h1] at hcl
          simp at hcl
    · exact hR1
  · constructor
    · intro hcl
      by_contra h1
      push_neg at h1
      rcases lt_trichotomy lam 0 with hl | hl | hl
      · rw [hR1 hl] at hcl
        simp at hcl
      · rw [hR3 (le_of_eq hl.symm) (by linarith)] at hcl
        split_ifs at hcl
      · rw [hR3 (le_of_lt hl) h1] at hcl
        split_ifs at hcl
    · exact hR2
  · intro h0 h1
    rw [hR3 h0 h1]
    by_cases hO : Point.peq e.org p
    · rw [if_pos hO]
      exact ⟨by simp [hO], by simp [hO], by simp [hO]⟩
    · rw [if_neg hO]
      by_cases hD : Point.peq e.dest p
      · rw [if_pos hD]
        exact ⟨by simp [hO], by simp [hO, hD], by simp [hO, hD]⟩
      · rw [if_neg hD]
        exact ⟨by simp [hO], by simp [hO, hD], by simp [hO, hD]⟩

/-- Application of classify_cases at a concrete input: (4,0) lies past
the destination of the edge from (0,0) to (2,0), at parameter lam = 2,
and classifies BEYOND. -/
theorem classify_cases_witness :
    Point.classify ⟨4, 0⟩ ⟨⟨0, 0⟩, ⟨2, 0⟩⟩ = PointClassification.BEYOND := by
  have h := (classify_cases ⟨4, 0⟩ ⟨⟨0, 0⟩, ⟨2, 0⟩⟩).2.2 2
    (by norm_num [crossSA, Point.sub])
    (by simp [Point.sub])
    (by simp [Point.sub, Point.scale]; norm_num)
  exact h.2.1.mpr (by norm_num)

/-! Heap and chain lemmas for the pointer level model. -/

theorem lookupV_cons (i : Nat) (n : VNode) (h : List (Nat × VNode)) (j : Nat) :
    lookupV ((i, n) :: h) j = if j = i then some n else lookupV h j := rfl

theorem lookupV_setV (h : List (Nat × VNode)) (i : Nat) (f : VNode → VNode) (j : Nat) :
    lookupV (setV h i f) j = if j = i then (lookupV h j).map f else lookupV h j := by
  induction h with
  | nil => simp [setV, lookupV]
  | cons a t ih =>
    obtain ⟨k, n⟩ := a
    have hstep : setV ((k, n) :: t) i f =
        (if k = i then (k, f n) else (k, n)) :: setV t i f := by
      unfold setV
      rw [List.map_cons]
    rw [hstep]
    by_cases hki : k = i
    · rw [if_pos hki]
      subst hki
      by_cases hjk : j = k
      · subst hjk
        simp [lookupV_cons]
      · simp [lookupV_cons, hjk, ih]
    · rw [if_neg hki]
      by_cases hjk : j = k
      · subst hjk
        simp [lookupV_cons, hki]
      · simp [lookupV_cons, hjk, ih]

theorem setV_keys (h : List (Nat × VNode)) (i : Nat) (f : VNode → VNode) :
    (setV h i f).map Prod.fst = h.map Prod.fst := by
  unfold setV
  rw [List.map_map]
  apply List.map_congr_left
  intro q _
  by_cases hq : q.1 = i <;> simp [hq]

theorem chain_congr (h1 h2 : List (Nat × VNode)) (l : List Nat)
    (heq : ∀ v ∈ l, lookupV h2 v = lookupV h1 v) :
    ∀ (p n : Nat), chain h1 p l n → chain h2 p l n := by
  induction l with
  | nil => intro p n _; trivial
  | cons v tl ih =>
    intro p n hc
    obtain ⟨nd, hl, hp, hn, hrest⟩ := hc
    exact ⟨nd, by rw [heq v (by simp)]; exact hl, hp, hn,
      ih (fun w hw => heq w (by simp [hw])) v n hrest⟩

theorem headD_append (a b : List Nat) (d : Nat) :
    (a ++ b).headD d = a.headD (b.headD d) := by
  cases a <;> simp

theorem getD_default_eq (l : List Nat) (i : Nat) (hi : i < l.length) (d1 d2 : Nat) :
    l.getD i d1 = l.getD i d2 := by
  rw [List.getD_eq_getElem l d1 hi, List.getD_eq_getElem l d2 hi]

theorem getD_last_cons (v w : Nat) (a3 : List Nat) (p : Nat) :
    (v :: w :: a3).getD ((v :: w :: a3).length - 1) p =
      (w :: a3).getD ((w :: a3).length - 1) v := by
  have h1 : (v :: w :: a3).length - 1 = ((w :: a3).length - 1) + 1 := by simp
  rw [h1, List.getD_cons_succ]
  exact getD_default_eq _ _ (by simp) _ _

theorem chain_append (h : List (Nat × VNode)) (a b : List Nat) :
    ∀ (p n : Nat), chain h p (a ++ b) n ↔
      chain h p a (b.headD n) ∧ chain h (a.getD (a.length - 1) p) b n := by
  induction a with
  | nil =>
    intro p n
    constructor
    · intro hc
      exact ⟨trivial, hc⟩
    · intro hc
      exact hc.2
  | cons v a2 ih =>
    intro p n
    rw [List.cons_append]
    constructor
    · intro hc
      obtain ⟨nd, hl, hp, hn, hrest⟩ := hc
      rw [headD_append] at hn
      obtain ⟨h1, h2⟩ := (ih v n).mp hrest
      refine ⟨⟨nd, hl, hp, hn, h1⟩, ?_⟩
      cases a2 with
      | nil => simpa using h2
      | cons w a3 =>
        rw [getD_last_cons]
        exact h2
    · intro hc
      obtain ⟨⟨nd, hl, hp, hn, h1⟩, h2⟩ := hc
      refine ⟨nd, hl, hp, by rw [headD_append]; exact hn, ?_⟩
      refine (ih v n).mpr ⟨h1, ?_⟩
      cases a2 with
      | nil => simpa using h2
      | cons w a3 =>
        rw [getD_last_cons] at h2
        exact h2

theorem chain_node (h : List (Nat × VNode)) :
    ∀ (l : List Nat) (p n : Nat), chain h p l n →
      ∀ k, k < l.length →
        ∃ nd, lookupV h (l.getD k 0) = some nd ∧
          nd.prv = (if k = 0 then p else l.getD (k - 1) 0) ∧
          nd.nxt = (if k + 1 < l.length then l.getD (k + 1) 0 else n) := by
  intro l
  induction l with
  | nil => intro p n _ k hk; simp at hk
  | cons v tl ih =>
    intro p n hc k hk
    obtain ⟨nd, hl, hp, hn, hrest⟩ := hc
    cases k with
    | zero =>
      refine ⟨nd, by simpa using hl, by simpa using hp, ?_⟩
      cases tl with
      | nil => simp [hn]
      | cons w t2 =>
        rw [if_pos (by simp)]
        rw [hn]
        simp
    | succ k2 =>
      have hk2 : k2 < tl.length := by
        have : k2 + 1 < tl.length + 1 := by simpa using hk
        omega
      obtain ⟨nd2, hl2, hp2, hn2⟩ := ih v n hrest k2 hk2
      refine ⟨nd2, by simpa using hl2, ?_, ?_⟩
      · rw [if_neg (by omega), hp2]
        cases k2 with
        | zero => simp
        | succ k3 => simp
      · rw [hn2]
        by_cases hc2 : k2 + 1 < tl.length
        · rw [if_pos hc2, if_pos (by simp; omega)]
          simp
        · rw [if_neg hc2, if_neg (by simp; omega)]

theorem chain_follow (h : List (Nat × VNode)) :
    ∀ (k : Nat) (l : List Nat) (v p n : Nat), chain h p (v :: l) n →
      k < (v :: l).length → follow h k v = some ((v :: l).getD k 0) := by
  intro k
  induction k with
  | zero => intro l v p n _ _; simp [follow]
  | succ k2 ih =>
    intro l v p n hc hk
    obtain ⟨nd, hl, hp, hn, hrest⟩ := hc
    cases l with
    | nil =>
      exfalso
      simp at hk
    | cons w t2 =>
      have hstep : follow h (k2 + 1) v = follow h k2 nd.nxt := by simp [follow, hl]
      rw [hstep, hn]
      simp only [List.headD_cons]
      have hk3 : k2 < (w :: t2).length := by
        have : k2 + 1 < (w :: t2).length + 1 := by simpa using hk
        omega
      have := ih t2 w v n hrest hk3
      simpa using this

theorem chain_follow_wrap (h : List (Nat × VNode)) :
    ∀ (l : List Nat) (v p n : Nat), chain h p (v :: l) n →
      follow h (l.length + 1) v = some n := by
  intro l
  induction l with
  | nil =>
    intro v p n hc
    obtain ⟨nd, hl, _, hn, _⟩ := hc
    simp [follow, hl, hn]
  | cons w t2 ih =>
    intro v p n hc
    obtain ⟨nd, hl, _, hn, hrest⟩ := hc
    have h1 : follow h (t2.length + 1 + 1) v = follow h (t2.length + 1) nd.nxt := by
      simp [follow, hl]
    simp only [List.length_cons]
    rw [h1, hn]
    simp only [List.headD_cons]
    exact ih w v n hrest

theorem follow_append (h : List (Nat × VNode)) :
    ∀ (j k v : Nat), follow h (j + k) v =
      (follow h j v).bind fun w => follow h k w := by
  intro j
  induction j with
  | zero => intro k v; simp [follow]
  | succ j2 ih =>
    intro k v
    have hj : j2 + 1 + k = (j2 + k) + 1 := by omega
    rw [hj]
    cases hl : lookupV h v with
    | none => simp [follow, hl]
    | some nd => simp [follow, hl, ih]

theorem ringAll_member_follow (h : List (Nat × VNode)) (r : List Nat) (hr : ringAll h r)
    (k : Nat) (hk : k < r.length) :
    follow h r.length (r.getD k 0) = some (r.getD k 0) := by
  cases r with
  | nil => simp at hk
  | cons c rest =>
    have hchain : chain h ((c :: rest).getD ((c :: rest).length - 1) 0) (c :: rest) c := hr
    have hsplit : (c :: rest).take k ++ (c :: rest).drop k = c :: rest :=
      List.take_append_drop k (c :: rest)
    have happ := (chain_append h ((c :: rest).take k) ((c :: rest).drop k)
        ((c :: rest).getD ((c :: rest).length - 1) 0) c).mp (by rw [hsplit]; exact hchain)
    obtain ⟨_, h2⟩ := happ
    have hdrop : (c :: rest).drop k = (c :: rest).getD k 0 :: (c :: rest).drop (k + 1) := by
      rw [List.drop_eq_getElem_cons hk, List.getD_eq_getElem _ 0 hk]
    rw [hdrop] at h2
    have hwrap := chain_follow_wrap h ((c :: rest).drop (k + 1)) ((c :: rest).getD k 0) _ c h2
    have hlen1 : ((c :: rest).drop (k + 1)).length + 1 = (c :: rest).length - k := by
      rw [List.length_drop]
      omega
    rw [hlen1] at hwrap
    have hfol0 : follow h k c = some ((c :: rest).getD k 0) :=
      chain_follow h k rest c ((c :: rest).getD ((c :: rest).length - 1) 0) c hchain hk
    have hdecomp : (c :: rest).length = ((c :: rest).length - k) + k := by omega
    rw [hdecomp, follow_append, hwrap]
    simpa using hfol0

theorem ringAll_member_invLinks (h : List (Nat × VNode)) (r : List Nat) (hr : ringAll h r)
    (k : Nat) (hk : k < r.length) : invLinks h (r.getD k 0) := by
  cases r with
  | nil => simp at hk
  | cons c rest =>
    have hchain : chain h ((c :: rest).getD ((c :: rest).length - 1) 0) (c :: rest) c := hr
    have hlen : (c :: rest).length = rest.length + 1 := rfl
    obtain ⟨nd, hnd, hprv, hnxt⟩ := chain_node h (c :: rest) _ c hchain k hk
    refine ⟨nd, hnd, ?_, ?_⟩
    · by_cases hks : k + 1 < (c :: rest).length
      · obtain ⟨nd2, hnd2, hprv2, _⟩ := chain_node h (c :: rest) _ c hchain (k + 1) hks
        rw [hnxt, if_pos hks]
        refine ⟨nd2, hnd2, ?_⟩
        rw [hprv2, if_neg (by omega)]
        simp
      · obtain ⟨nd2, hnd2, hprv2, _⟩ := chain_node h (c :: rest) _ c hchain 0 (by simp)
        rw [hnxt, if_neg hks]
        refine ⟨nd2, by simpa using hnd2, ?_⟩
        rw [hprv2, if_pos rfl]
        have hkl : (c :: rest).length - 1 = k := by omega
        rw [hkl]
    · by_cases hk0 : k = 0
      · subst hk0
        have hlast : (c :: rest).length - 1 < (c :: rest).length := by simp
        obtain ⟨nd2, hnd2, _, hnxt2⟩ := chain_node h (c :: rest) _ c hchain
          ((c :: rest).length - 1) hlast
        rw [hprv, if_pos rfl]
        refine ⟨nd2, hnd2, ?_⟩
        rw [hnxt2, if_neg (by omega)]
        simp
      · obtain ⟨nd2, hnd2, _, hnxt2⟩ := chain_node h (c :: rest) _ c hchain (k - 1) (by omega)
        rw [hprv, if_neg hk0]
        refine ⟨nd2, hnd2, ?_⟩
        rw [hnxt2, if_pos (by omega)]
        have hsk : k - 1 + 1 = k := by omega
        rw [hsk]

theorem strongInv_ringInvariant (m : PolyMem) (hs : StrongInv m) : RingInvariant m := by
  obtain ⟨r, hcur, hsize, hnd, hbound, hknd, hkbound, hring⟩ := hs
  constructor
  · intro h0
    have hr0 : r = [] := List.length_eq_zero.mp (by omega)
    rw [hcur, hr0]
    rfl
  · intro c hc k hk v hv
    rw [hcur] at hc
    cases r with
    | nil => exact absurd hc (by simp)
    | cons c0 rest =>
      have hc0 : c0 = c := by simpa using hc
      subst hc0
      have hklen : k < (c0 :: rest).length := by omega
      have hfk : follow m.verts k c0 = some ((c0 :: rest).getD k 0) :=
        chain_follow m.verts k rest c0 ((c0 :: rest).getD ((c0 :: rest).length - 1) 0) c0
          hring (by omega)
      have hveq : v = (c0 :: rest).getD k 0 := by
        have hcomb := hv.symm.trans hfk
        injection hcomb
      rw [hveq, hsize]
      exact ⟨ringAll_member_follow m.verts (c0 :: rest) hring k hklen,
        ringAll_member_invLinks m.verts (c0 :: rest) hring k hklen⟩

theorem getD_mem (l : List Nat) (i : Nat) (hi : i < l.length) : l.getD i 0 ∈ l := by
  rw [List.getD_eq_getElem l 0 hi]
  exact List.getElem_mem hi

theorem getD_append_len (a : List Nat) (c : Nat) : (a ++ [c]).getD a.length 0 = c := by
  induction a with
  | nil => rfl
  | cons x xs ih => simp only [List.cons_append, List.length_cons, List.getD_cons_succ]; exact ih

theorem ringAll_rot1 (h : List (Nat × VNode)) (r : List Nat) (hr : ringAll h r) :
    ringAll h (rot1 r) := by
  cases r with
  | nil => trivial
  | cons c rest =>
    cases rest with
    | nil => exact hr
    | cons w rs =>
      have hsrc : chain h ((c :: w :: rs).getD ((c :: w :: rs).length - 1) 0) (c :: w :: rs) c :=
        hr
      obtain ⟨s1, s2⟩ := (chain_append h [c] (w :: rs)
        ((c :: w :: rs).getD ((c :: w :: rs).length - 1) 0) c).mp hsrc
      show chain h ((w :: (rs ++ [c])).getD ((w :: (rs ++ [c])).length - 1) 0)
        (w :: (rs ++ [c])) w
      have hpN : (w :: (rs ++ [c])).getD ((w :: (rs ++ [c])).length - 1) 0 = c := by
        have h1 : (w :: (rs ++ [c])).length - 1 = (w :: rs).length := by simp
        have h2 : (w :: (rs ++ [c])) = (w :: rs) ++ [c] := by simp
        rw [h1, h2]
        exact getD_append_len (w :: rs) c
      rw [hpN]
      have h2 : (w :: (rs ++ [c])) = (w :: rs) ++ [c] := by simp
      rw [h2]
      refine (chain_append h (w :: rs) [c] c w).mpr ⟨?_, ?_⟩
      · exact s2
      · have hps : (w :: rs).getD ((w :: rs).length - 1) c =
            (c :: w :: rs).getD ((c :: w :: rs).length - 1) 0 := by
          have h1 : (c :: w :: rs).length - 1 = ((w :: rs).length - 1) + 1 := by simp
          rw [h1, List.getD_cons_succ]
          exact getD_default_eq _ _ (by simp) _ _
        rw [hps]
        simpa using s1

theorem ringAll_rotate (h : List (Nat × VNode)) (r : List Nat) (hr : ringAll h r) :
    ∀ k, ringAll h (r.rotate k) := by
  intro k
  induction k with
  | zero => simpa [List.rotate_zero] using hr
  | succ k2 ih =>
    have hrw : r.rotate (k2 + 1) = rot1 (r.rotate k2) := by
      rw [rot1_eq_rotate, List.rotate_rotate]
    rw [hrw]
    exact ringAll_rot1 h _ ih

theorem strongInv_empty : StrongInv emptyMem :=
  ⟨[], rfl, rfl, List.nodup_nil, by simp, List.nodup_nil, by simp [emptyMem], trivial⟩

theorem insertMem_some (m : PolyMem) (p : Point) (c : Nat) (cn : VNode)
    (hc : m.cursor = some c) (hl : lookupV m.verts c = some cn) :
    insertMem m p =
      ⟨setV (setV ((m.fresh, ⟨p, cn.nxt, c⟩) :: m.verts) cn.nxt
          fun n => ⟨n.pt, n.nxt, m.fresh⟩) c fun n => ⟨n.pt, m.fresh, n.prv⟩,
        some c, m.size + 1, m.fresh + 1⟩ := by
  unfold insertMem
  rw [hc]
  simp only [hl]

theorem strongInv_insert (m : PolyMem) (p : Point) (hs : StrongInv m) :
    StrongInv (insertMem m p) := by
  obtain ⟨r, hcur, hsize, hnd, hbound, hknd, hkbound, hring⟩ := hs
  cases hcv : m.cursor with
  | none =>
    have hr0 : r = [] := by
      cases r with
      | nil => rfl
      | cons a t => rw [hcv] at hcur; exact absurd hcur (by simp)
    subst hr0
    have hins : insertMem m p =
        ⟨(m.fresh, ⟨p, m.fresh, m.fresh⟩) :: m.verts, some m.fresh, m.size + 1, m.fresh + 1⟩ := by
      unfold insertMem
      rw [hcv]
    rw [hins]
    refine ⟨[m.fresh], rfl, ?_, by simp, ?_, ?_, ?_, ?_⟩
    · have h0 : m.size = 0 := by simpa using hsize
      simp [h0]
    · intro i hi
      dsimp only at hi ⊢
      simp at hi
      omega
    · dsimp only
      simp only [List.map_cons]
      refine List.nodup_cons.mpr ⟨?_, hknd⟩
      intro hmem
      have := hkbound m.fresh hmem
      omega
    · intro i hi
      dsimp only at hi ⊢
      simp only [List.map_cons, List.mem_cons] at hi
      rcases hi with rfl | hi
      · omega
      · have := hkbound i hi
        omega
    · refine ⟨⟨p, m.fresh, m.fresh⟩, ?_, rfl, rfl, trivial⟩
      dsimp only
      rw [lookupV_cons, if_pos rfl]
  | some c =>
    cases r with
    | nil => rw [hcv] at hcur; exact absurd hcur (by simp)
    | cons c0 rest =>
      have hc0 : c = c0 := by rw [hcv] at hcur; simpa using hcur
      subst hc0
      have hc0fresh : c < m.fresh := hbound c (by simp)
      cases rest with
      | nil =>
        obtain ⟨cn, hcn, hcnp, hcnn, _⟩ := hring
        have hnn : cn.nxt = c := hcnn
        have hins := insertMem_some m p c cn hcv hcn
        rw [hins, hnn]
        set H3 := setV (setV ((m.fresh, (⟨p, c, c⟩ : VNode)) :: m.verts) c
          fun n => ⟨n.pt, n.nxt, m.fresh⟩) c fun n => ⟨n.pt, m.fresh, n.prv⟩ with hH3
        have hlc0 : lookupV H3 c = some ⟨cn.pt, m.fresh, m.fresh⟩ := by
          rw [hH3, lookupV_setV, if_pos rfl, lookupV_setV, if_pos rfl, lookupV_cons,
            if_neg (by omega), hcn]
          rfl
        have hlfr : lookupV H3 m.fresh = some ⟨p, c, c⟩ := by
          rw [hH3, lookupV_setV, if_neg (by omega), lookupV_setV, if_neg (by omega),
            lookupV_cons, if_pos rfl]
        refine ⟨[c, m.fresh], rfl, ?_, ?_, ?_, ?_, ?_, ?_⟩
        · have h1 : m.size = 1 := by simpa using hsize
          dsimp only
          simp [h1]
        · simp only [List.nodup_cons, List.mem_singleton, List.not_mem_nil,
            not_false_iff, and_true, List.nodup_nil]
          omega
        · intro i hi
          dsimp only at hi ⊢
          simp at hi
          rcases hi with rfl | rfl <;> omega
        · dsimp only
          rw [hH3, setV_keys, setV_keys]
          simp only [List.map_cons]
          refine List.nodup_cons.mpr ⟨?_, hknd⟩
          intro hmem
          have := hkbound m.fresh hmem
          omega
        · intro i hi
          dsimp only at hi ⊢
          rw [hH3, setV_keys, setV_keys] at hi
          simp only [List.map_cons, List.mem_cons] at hi
          rcases hi with rfl | hi
          · omega
          · have := hkbound i hi
            omega
        · refine ⟨⟨cn.pt, m.fresh, m.fresh⟩, hlc0, rfl, rfl, ?_⟩
          exact ⟨⟨p, c, c⟩, hlfr, rfl, rfl, trivial⟩
      | cons w rs =>
        obtain ⟨cn, hcn, hcnp, hcnn, hrest1⟩ := hring
        obtain ⟨wn, hwn, hwnp, hwnn, hrest2⟩ := hrest1
        have hnn : cn.nxt = w := hcnn
        have hwfresh : w < m.fresh := hbound w (by simp)
        have hnd1 : c ∉ w :: rs ∧ (w :: rs).Nodup := by
          rw [List.nodup_cons] at hnd
          exact hnd
        have hc0w : c ≠ w := fun hh => hnd1.1 (by rw [hh]; simp)
        have hwrs : w ∉ rs := by
          have h2 := hnd1.2
          rw [List.nodup_cons] at h2
          exact h2.1
        have hins := insertMem_some m p c cn hcv hcn
        rw [hins, hnn]
        set H3 := setV (setV ((m.fresh, (⟨p, w, c⟩ : VNode)) :: m.verts) w
          fun n => ⟨n.pt, n.nxt, m.fresh⟩) c fun n => ⟨n.pt, m.fresh, n.prv⟩ with hH3
        have hlc0 : lookupV H3 c = some ⟨cn.pt, m.fresh, cn.prv⟩ := by
          rw [hH3, lookupV_setV, if_pos rfl, lookupV_setV, if_neg hc0w, lookupV_cons,
            if_neg (by omega), hcn]
          rfl
        have hlfr : lookupV H3 m.fresh = some ⟨p, w, c⟩ := by
          rw [hH3, lookupV_setV, if_neg (by omega), lookupV_setV, if_neg (by omega),
            lookupV_cons, if_pos rfl]
        have hlw : lookupV H3 w = some ⟨wn.pt, wn.nxt, m.fresh⟩ := by
          rw [hH3, lookupV_setV, if_neg (Ne.symm hc0w), lookupV_setV, if_pos rfl,
            lookupV_cons, if_neg (by omega), hwn]
          rfl
        have hlrs : ∀ v ∈ rs, lookupV H3 v = lookupV m.verts v := by
          intro v hv
          have hvc0 : v ≠ c := fun hh => hnd1.1 (by rw [← hh]; simp [hv])
          have hvw : v ≠ w := fun hh => hwrs (hh ▸ hv)
          have hvfresh : v < m.fresh := hbound v (by simp [hv])
          rw [hH3, lookupV_setV, if_neg hvc0, lookupV_setV, if_neg hvw, lookupV_cons,
            if_neg (by omega)]
        refine ⟨c :: m.fresh :: w :: rs, rfl, ?_, ?_, ?_, ?_, ?_, ?_⟩
        · have h1 : m.size = rs.length + 2 := by simpa using hsize
          dsimp only
          simp [h1]
        · rw [List.nodup_cons]
          constructor
          · intro hmem
            rcases List.mem_cons.mp hmem with hh | hh
            · omega
            · exact hnd1.1 hh
          · rw [List.nodup_cons]
            refine ⟨?_, hnd1.2⟩
            intro hmem
            have := hbound m.fresh (List.mem_cons_of_mem c hmem)
            omega
        · intro i hi
          dsimp only at hi ⊢
          simp only [List.mem_cons] at hi
          rcases hi with rfl | rfl | hi
          · omega
          · omega
          · have := hbound i (by simp [hi])
            omega
        · dsimp only
          rw [hH3, setV_keys, setV_keys]
          simp only [List.map_cons]
          refine List.nodup_cons.mpr ⟨?_, hknd⟩
          intro hmem
          have := hkbound m.fresh hmem
          omega
        · intro i hi
          dsimp only at hi ⊢
          rw [hH3, setV_keys, setV_keys] at hi
          simp only [List.map_cons, List.mem_cons] at hi
          rcases hi with rfl | hi
          · omega
          · have := hkbound i hi
            omega
        · have hprevN : (c :: m.fresh :: w :: rs).getD
              ((c :: m.fresh :: w :: rs).length - 1) 0 =
              (c :: w :: rs).getD ((c :: w :: rs).length - 1) 0 := by
            have e1 : (c :: m.fresh :: w :: rs).length - 1 = rs.length + 2 := by simp
            have e2 : (c :: w :: rs).length - 1 = rs.length + 1 := by simp
            rw [e1, e2]
            simp [List.getD_cons_succ]
          show chain H3 ((c :: m.fresh :: w :: rs).getD
            ((c :: m.fresh :: w :: rs).length - 1) 0) (c :: m.fresh :: w :: rs) c
          rw [hprevN]
          refine ⟨⟨cn.pt, m.fresh, cn.prv⟩, hlc0, hcnp, rfl, ?_⟩
          refine ⟨⟨p, w, c⟩, hlfr, rfl, rfl, ?_⟩
          refine ⟨⟨wn.pt, wn.nxt, m.fresh⟩, hlw, rfl, hwnn, ?_⟩
          exact chain_congr m.verts H3 rs hlrs w c hrest2

theorem advanceMem_some (m : PolyMem) (cw : Bool) (c : Nat) (nd : VNode)
    (hc : m.cursor = some c) (hl : lookupV m.verts c = some nd) :
    advanceMem m cw = ⟨m.verts, some (if cw then nd.nxt else nd.prv), m.size, m.fresh⟩ := by
  unfold advanceMem
  rw [hc]
  simp only [hl]

theorem strongInv_advance (m : PolyMem) (cw : Bool) (hs : StrongInv m) :
    StrongInv (advanceMem m cw) := by
  obtain ⟨r, hcur, hsize, hnd, hbound, hknd, hkbound, hring⟩ := hs
  cases hcv : m.cursor with
  | none =>
    have hm : advanceMem m cw = m := by
      unfold advanceMem
      rw [hcv]
    rw [hm]
    exact ⟨r, hcur, hsize, hnd, hbound, hknd, hkbound, hring⟩
  | some c =>
    cases r with
    | nil => rw [hcv] at hcur; exact absurd hcur (by simp)
    | cons c0 rest =>
      have hc0 : c = c0 := by rw [hcv] at hcur; simpa using hcur
      subst hc0
      have hring2 : chain m.verts ((c :: rest).getD ((c :: rest).length - 1) 0)
          (c :: rest) c := hring
      obtain ⟨cn, hcn, hcnp, hcnn, _⟩ := hring2
      have hadv := advanceMem_some m cw c cn hcv hcn
      rw [hadv]
      have hmem : (if cw then cn.nxt else cn.prv) ∈ (c :: rest) := by
        cases cw with
        | false =>
          simp only [Bool.false_eq_true, if_false]
          rw [hcnp]
          exact getD_mem _ _ (by simp)
        | true =>
          simp only [if_true]
          rw [hcnn]
          cases rest with
          | nil => simp
          | cons w rs => simp
      obtain ⟨i, hi, hgi⟩ := List.getElem_of_mem hmem
      refine ⟨(c :: rest).rotate i, ?_, ?_, ?_, ?_, ?_, ?_, ?_⟩
      · dsimp only
        rw [List.head?_rotate hi, List.getElem?_eq_getElem hi, hgi]
      · dsimp only
        rw [List.length_rotate]
        exact hsize
      · exact List.nodup_rotate.mpr hnd
      · intro j hj
        exact hbound j (List.mem_rotate.mp hj)
      · exact hknd
      · exact hkbound
      · exact ringAll_rotate m.verts (c :: rest) hring i

theorem strongInv_foldl_insert (ps : List Point) :
    ∀ (m0 : PolyMem), StrongInv m0 → StrongInv (ps.foldl insertMem m0) := by
  induction ps with
  | nil => intro m0 h; simpa using h
  | cons q ps2 ih =>
    intro m0 h
    rw [List.foldl_cons]
    exact ih _ (strongInv_insert m0 q h)

theorem strongInv_copy (m : PolyMem) : StrongInv (copyMem m) := by
  unfold copyMem
  cases m.cursor with
  | none => exact strongInv_empty
  | some c => exact strongInv_foldl_insert _ emptyMem strongInv_empty

theorem built_strongInv (m : PolyMem) (h : Built m) : StrongInv m := by
  induction h with
  | empty => exact strongInv_empty
  | ins p hb ih => exact strongInv_insert _ p ih
  | adv cw hb ih => exact strongInv_advance _ cw ih
  | copy hb ih => exact strongInv_copy _

/-- Claim C7: every Polygon state reachable through the operations of
the class (default construction, insert, advance in either direction,
copy construction - and hence also the result polygons of the clip
functions, which are a default construction followed by inserts)
satisfies the ring invariant: a size 0 polygon has a null cursor, and in
a polygon of positive size every vertex reachable from the cursor comes
back to itself after exactly size next steps, with the prev links
inverting the next links. -/
theorem built_ring_invariant (m : PolyMem) (h : Built m) : RingInvariant m :=
  strongInv_ringInvariant m (built_strongInv m h)

/-- Application of built_ring_invariant to a concrete two vertex
polygon built by two inserts. -/
theorem built_ring_invariant_witness :
    RingInvariant (insertMem (insertMem emptyMem ⟨1, 2⟩) ⟨3, 4⟩) :=
  built_ring_invariant _ (Built.ins ⟨3, 4⟩ (Built.ins ⟨1, 2⟩ Built.empty))
